import Mathlib

/-!
# Verification of the gym-saas python face service (`src/python-face-service/main.py`)

Shallow embedding of the service's matching logic.  Numeric values
(`float64` in the source) are modelled as rationals `ℚ`; the claims under
study only involve exact arithmetic and order comparisons, which `ℚ`
models faithfully.

The source compares Euclidean distances
(`face_recognition.face_distance`, i.e. the square root of the sum of the
squared coordinate differences) against a threshold and against the best
distance seen so far.  Square roots are irrational, so the embedding
carries the *squared* distance instead and compares it against the
*squared* threshold: for nonnegative `d`, `d < t` iff `0 ≤ t ∧ d^2 < t^2`,
because squaring is strictly monotone on nonnegatives and `d < t` is
impossible for `t < 0`.  Both distances compared by the loop (`dist` and
`best_dist`) are nonnegative, so every comparison performed by the source
is preserved exactly.
-/

set_option maxRecDepth 4096

namespace FaceService

/-- Squared Euclidean distance between two coordinate lists, the square of
`face_recognition.face_distance([enc], query)[0]` in the source
(`np.linalg.norm` of the componentwise difference). -/
def sqDist (a b : List ℚ) : ℚ :=
  (List.zipWith (fun x y => (x - y) ^ 2) a b).sum

/-- The successful payload of `/match`: the source's `MatchResult` pydantic
model, `{regNo, name}`. -/
structure MatchResult where
  regNo : Int
  name : String
deriving DecidableEq, Repr

/-- One element of the client-supplied `enrolled` JSON array, as the `match`
loop inspects it: either not a JSON object (`not isinstance(m, dict)`), or an
object whose `descriptor`, `regNo` and `name` fields may each be absent. -/
inductive RawMember where
  | other
  | obj (descriptor : Option (List ℚ)) (regNo : Option Int) (name : Option String)
deriving DecidableEq, Repr

/-- The JSON body `/match` answers with: a matched member, `{"match": false}`,
or an `{"error": ...}` payload. -/
inductive MatchResponse where
  | ok (result : MatchResult)
  | noMatch
  | err (msg : String)
deriving DecidableEq, Repr

/-- The source's `dist < MATCH_THRESHOLD` test, carried on squared distances:
for the nonnegative Euclidean distance `d` with `d^2 = dSq`, `d < thresh` iff
`0 ≤ thresh ∧ dSq < thresh^2`. -/
def qualifiesSq (thresh dSq : ℚ) : Bool :=
  decide (0 ≤ thresh ∧ dSq < thresh ^ 2)

/-- The source's `dist < best_dist` test, carried on squared distances.
`best = none` models the initial `best_dist = float("inf")`, against which
every distance compares strictly less. -/
def ltBestSq (dSq : ℚ) : Option (MatchResult × ℚ) → Bool
  | none => true
  | some b => decide (dSq < b.2)

/-- The `for m in members` loop of `/match` (main.py lines 101-110).
Non-dict entries and entries without a `descriptor` key are skipped
(`continue`), as are descriptors whose length is not 128; otherwise the
candidate's distance to the query is compared against the threshold and the
best distance so far, and on success `best` becomes
`MatchResult(regNo=int(m.get("regNo", 0)), name=str(m.get("name", "")))`
together with its distance. -/
def matchLoop (query : List ℚ) (thresh : ℚ) :
    List RawMember → Option (MatchResult × ℚ) → Option (MatchResult × ℚ)
  | [], best => best
  | m :: rest, best =>
    match m with
    | RawMember.other => matchLoop query thresh rest best
    | RawMember.obj odesc oreg oname =>
      match odesc with
      | none => matchLoop query thresh rest best
      | some enc =>
        if enc.length ≠ 128 then matchLoop query thresh rest best
        else
          let dSq := sqDist enc query
          if qualifiesSq thresh dSq && ltBestSq dSq best then
            matchLoop query thresh rest
              (some (⟨(oreg.getD 0 : Int), oname.getD ""⟩, dSq))
          else
            matchLoop query thresh rest best

/-- The `/match` handler (main.py lines 77-114) after form decoding: reject a
query descriptor whose length is not 128 with the source's error message,
otherwise run the scan from `best = None` and answer with the best match if
one was found (`if best: return best`), else `{"match": false}`.
JSON decoding of the two form fields lives at the framework boundary and is
outside this model; the handler receives the decoded values. -/
def matchHandler (desc : List ℚ) (members : List RawMember) (thresh : ℚ) :
    MatchResponse :=
  if desc.length ≠ 128 then MatchResponse.err "Descriptor must be 128-d"
  else
    match matchLoop desc thresh members none with
    | some best => MatchResponse.ok best.1
    | none => MatchResponse.noMatch

/-- Default of the `MATCH_THRESHOLD` module constant: `0.45`, used when the
`FACE_MATCH_THRESHOLD` environment variable is unset (main.py line 35). -/
def MATCH_THRESHOLD (env : Option ℚ) : ℚ :=
  env.getD (45 / 100)

/-- The `/match-image` handler (main.py lines 117-139), parametrised by the
output of the external `face_recognition.face_encodings` call on the uploaded
image: if no face is found it answers `{"error": "No face found"}`, otherwise
it delegates to the `/match` logic on the first encoding (the
`json.dumps`/`json.loads` round trip of the encoding in the source is the
identity on the decoded value). -/
def matchImageHandler (encodings : List (List ℚ)) (members : List RawMember)
    (thresh : ℚ) : MatchResponse :=
  match encodings with
  | [] => MatchResponse.err "No face found"
  | e :: _ => matchHandler e members thresh

/-- The `/health` response body. -/
structure HealthResponse where
  status : String
deriving DecidableEq, Repr

/-- The `/health` handler (main.py lines 49-51).  `face_recognition` is
imported lazily inside the other routes, so this handler does not touch the
library; the parameter records whether the library is importable and is
ignored, modelling that independence. -/
def health (_faceRecognitionAvailable : Bool) : HealthResponse :=
  ⟨"ok"⟩

/-- The members the scan actually compares: dict entries carrying a
`descriptor` of length 128. -/
def isValidMember : RawMember → Bool
  | RawMember.other => false
  | RawMember.obj odesc _ _ =>
    match odesc with
    | none => false
    | some enc => enc.length == 128

/-- The `(result, squared distance)` pair the loop would build for one
member, `none` for the members it skips. -/
def memberEntry (query : List ℚ) : RawMember → Option (MatchResult × ℚ)
  | RawMember.other => none
  | RawMember.obj odesc oreg oname =>
    match odesc with
    | none => none
    | some enc =>
      if enc.length = 128 then
        some (⟨(oreg.getD 0 : Int), oname.getD ""⟩, sqDist enc query)
      else none

/-- All candidates the scan compares, in scan order, with their squared
distances to the query. -/
def entries (query : List ℚ) (members : List RawMember) :
    List (MatchResult × ℚ) :=
  members.filterMap (memberEntry query)

/-- The candidates the threshold admits, in scan order. -/
def qualified (thresh : ℚ) (query : List ℚ) (members : List RawMember) :
    List (MatchResult × ℚ) :=
  (entries query members).filter (fun p => qualifiesSq thresh p.2)

/-- The selection kernel of the loop, isolated from the skipping and the
threshold: fold over the admitted candidates keeping the first strict
minimum. -/
def selectMin :
    List (MatchResult × ℚ) → Option (MatchResult × ℚ) → Option (MatchResult × ℚ)
  | [], best => best
  | p :: rest, best =>
    selectMin rest (if ltBestSq p.2 best then some p else best)

lemma sqDist_cons (x y : ℚ) (a b : List ℚ) :
    sqDist (x :: a) (y :: b) = (x - y) ^ 2 + sqDist a b := by
  simp [sqDist]

lemma sqDist_nonneg (a b : List ℚ) : 0 ≤ sqDist a b := by
  induction a generalizing b with
  | nil => simp [sqDist]
  | cons x a ih =>
    cases b with
    | nil => simp [sqDist]
    | cons y b =>
      rw [sqDist_cons]
      exact add_nonneg (sq_nonneg _) (ih b)

lemma sqDist_self (a : List ℚ) : sqDist a a = 0 := by
  induction a with
  | nil => simp [sqDist]
  | cons x a ih => rw [sqDist_cons]; simp [ih]

lemma eq_of_sqDist_eq_zero (a b : List ℚ) (hlen : a.length = b.length)
    (h : sqDist a b = 0) : a = b := by
  induction a generalizing b with
  | nil =>
    cases b with
    | nil => rfl
    | cons y b => simp at hlen
  | cons x a ih =>
    cases b with
    | nil => simp at hlen
    | cons y b =>
      rw [sqDist_cons] at h
      have hd := sqDist_nonneg a b
      have hs := sq_nonneg (x - y)
      have h1 : (x - y) ^ 2 = 0 := by linarith
      have h2 : sqDist a b = 0 := by linarith
      have hx : x = y := sub_eq_zero.mp (sq_eq_zero_iff.mp h1)
      have hl : a.length = b.length := by simpa using hlen
      rw [hx, ih b hl h2]

lemma mem_entries_elim (query : List ℚ) (members : List RawMember)
    (p : MatchResult × ℚ) (hp : p ∈ entries query members) :
    ∃ enc oreg oname, RawMember.obj (some enc) oreg oname ∈ members ∧
      enc.length = 128 ∧ p = (⟨oreg.getD 0, oname.getD ""⟩, sqDist enc query) := by
  rcases List.mem_filterMap.mp hp with ⟨m, hm, hme⟩
  cases m with
  | other => simp [memberEntry] at hme
  | obj odesc oreg oname =>
    cases odesc with
    | none => simp [memberEntry] at hme
    | some enc =>
      by_cases h : enc.length = 128
      · simp only [memberEntry, if_pos h, Option.some.injEq] at hme
        exact ⟨enc, oreg, oname, hm, h, hme.symm⟩
      · simp [memberEntry, h] at hme

lemma entries_nonneg (query : List ℚ) (members : List RawMember) :
    ∀ p ∈ entries query members, 0 ≤ p.2 := by
  intro p hp
  rcases mem_entries_elim query members p hp with ⟨enc, oreg, oname, _, _, hpe⟩
  rw [hpe]
  exact sqDist_nonneg enc query

lemma entry_of_exact_member (query : List ℚ) (members : List RawMember)
    (oreg : Option Int) (oname : Option String) (hlen : query.length = 128)
    (hm : RawMember.obj (some query) oreg oname ∈ members) :
    (⟨oreg.getD 0, oname.getD ""⟩, (0 : ℚ)) ∈ entries query members := by
  refine List.mem_filterMap.mpr ⟨_, hm, ?_⟩
  simp [memberEntry, hlen, sqDist_self]

lemma qualified_cons_skip (thresh : ℚ) (query : List ℚ) (m : RawMember)
    (rest : List RawMember) (h : memberEntry query m = none) :
    qualified thresh query (m :: rest) = qualified thresh query rest := by
  simp [qualified, entries, List.filterMap_cons, h]

lemma qualified_cons_entry (thresh : ℚ) (query : List ℚ) (m : RawMember)
    (rest : List RawMember) (p : MatchResult × ℚ)
    (h : memberEntry query m = some p) :
    qualified thresh query (m :: rest) =
      if qualifiesSq thresh p.2 then p :: qualified thresh query rest
      else qualified thresh query rest := by
  simp only [qualified, entries, List.filterMap_cons, h]
  by_cases hq : qualifiesSq thresh p.2
  · rw [if_pos hq]
    simp [List.filter_cons, hq]
  · rw [if_neg hq]
    simp [List.filter_cons, hq]

lemma matchLoop_eq_selectMin (query : List ℚ) (thresh : ℚ)
    (members : List RawMember) :
    ∀ best, matchLoop query thresh members best =
      selectMin (qualified thresh query members) best := by
  induction members with
  | nil => intro best; rfl
  | cons m rest ih =>
    intro best
    cases m with
    | other =>
      rw [qualified_cons_skip thresh query RawMember.other rest rfl]
      simpa only [matchLoop] using ih best
    | obj odesc oreg oname =>
      cases odesc with
      | none =>
        rw [qualified_cons_skip thresh query (RawMember.obj none oreg oname)
          rest rfl]
        simpa only [matchLoop] using ih best
      | some enc =>
        by_cases hlen : enc.length = 128
        · have hme : memberEntry query (RawMember.obj (some enc) oreg oname) =
              some (⟨oreg.getD 0, oname.getD ""⟩, sqDist enc query) := by
            simp [memberEntry, hlen]
          rw [qualified_cons_entry thresh query _ rest _ hme]
          by_cases hq : qualifiesSq thresh (sqDist enc query)
          · rw [if_pos hq]
            simp only [matchLoop, if_neg (by simp [hlen] : ¬ enc.length ≠ 128)]
            by_cases hlt : ltBestSq (sqDist enc query) best
            · rw [if_pos (by simp [hq, hlt]), selectMin, if_pos hlt]
              exact ih _
            · rw [if_neg (by simp [hlt]), selectMin, if_neg hlt]
              exact ih best
          · rw [if_neg hq]
            simp only [matchLoop, if_neg (by simp [hlen] : ¬ enc.length ≠ 128)]
            rw [if_neg (by simp [hq])]
            exact ih best
        · have hme : memberEntry query (RawMember.obj (some enc) oreg oname) =
              none := by simp [memberEntry, hlen]
          rw [qualified_cons_skip thresh query _ rest hme]
          simp only [matchLoop, if_pos hlen]
          exact ih best

lemma selectMin_some (l : List (MatchResult × ℚ)) (b : MatchResult × ℚ) :
    ∃ r, selectMin l (some b) = some r ∧ r.2 ≤ b.2 ∧ (∀ q ∈ l, r.2 ≤ q.2) ∧
      (r = b ∨ ∃ pre suf, l = pre ++ r :: suf ∧ r.2 < b.2 ∧
        ∀ q ∈ pre, r.2 < q.2) := by
  induction l generalizing b with
  | nil => exact ⟨b, rfl, le_refl _, by simp, Or.inl rfl⟩
  | cons p rest ih =>
    by_cases hp : p.2 < b.2
    · have hlt : ltBestSq p.2 (some b) = true := by simp [ltBestSq, hp]
      obtain ⟨r, hr, hrb, hrl, hcase⟩ := ih p
      refine ⟨r, ?_, le_trans hrb (le_of_lt hp), ?_, ?_⟩
      · rw [selectMin, if_pos hlt]; exact hr
      · intro q hq
        rcases List.mem_cons.mp hq with h | h
        · rw [h]; exact hrb
        · exact hrl q h
      · rcases hcase with h | ⟨pre, suf, hdec, hlt2, hpre⟩
        · subst h
          exact Or.inr ⟨[], rest, rfl, hp, by simp⟩
        · refine Or.inr ⟨p :: pre, suf, by simp [hdec], lt_trans hlt2 hp, ?_⟩
          intro q hq
          rcases List.mem_cons.mp hq with h | h
          · rw [h]; exact hlt2
          · exact hpre q h
    · have hbp : b.2 ≤ p.2 := le_of_not_lt hp
      have hlt : ltBestSq p.2 (some b) = false := by
        simp [ltBestSq]; exact hbp
      obtain ⟨r, hr, hrb, hrl, hcase⟩ := ih b
      refine ⟨r, ?_, hrb, ?_, ?_⟩
      · rw [selectMin, if_neg (by simp [hlt])]; exact hr
      · intro q hq
        rcases List.mem_cons.mp hq with h | h
        · rw [h]; exact le_trans hrb hbp
        · exact hrl q h
      · rcases hcase with h | ⟨pre, suf, hdec, hlt2, hpre⟩
        · exact Or.inl h
        · refine Or.inr ⟨p :: pre, suf, by simp [hdec], hlt2, ?_⟩
          intro q hq
          rcases List.mem_cons.mp hq with h | h
          · rw [h]; exact lt_of_lt_of_le hlt2 hbp
          · exact hpre q h

lemma selectMin_none (l : List (MatchResult × ℚ)) (hl : l ≠ []) :
    ∃ pre r suf, l = pre ++ r :: suf ∧ selectMin l none = some r ∧
      (∀ q ∈ l, r.2 ≤ q.2) ∧ ∀ q ∈ pre, r.2 < q.2 := by
  cases l with
  | nil => exact absurd rfl hl
  | cons p rest =>
    obtain ⟨r, hr, hrb, hrl, hcase⟩ := selectMin_some rest p
    have hsel : selectMin (p :: rest) none = some r := by
      have hlt : ltBestSq p.2 none = true := rfl
      rw [selectMin, if_pos hlt]; exact hr
    rcases hcase with h | ⟨pre, suf, hdec, hlt2, hpre⟩
    · subst h
      refine ⟨[], r, rest, rfl, hsel, ?_, by simp⟩
      intro q hq
      rcases List.mem_cons.mp hq with h | h
      · rw [h]
      · exact hrl q h
    · refine ⟨p :: pre, r, suf, by simp [hdec], hsel, ?_, ?_⟩
      · intro q hq
        rcases List.mem_cons.mp hq with h | h
        · rw [h]; exact le_of_lt hlt2
        · exact hrl q h
      · intro q hq
        rcases List.mem_cons.mp hq with h | h
        · rw [h]; exact hlt2
        · exact hpre q h

lemma matchHandler_ok_elim (desc : List ℚ) (members : List RawMember)
    (thresh : ℚ) (r : MatchResult)
    (h : matchHandler desc members thresh = MatchResponse.ok r) :
    desc.length = 128 ∧ ∃ p ∈ qualified thresh desc members,
      matchHandler desc members thresh = MatchResponse.ok p.1 ∧ p.1 = r := by
  by_cases hlen : desc.length = 128
  · refine ⟨hlen, ?_⟩
    by_cases hne : qualified thresh desc members = []
    · exfalso
      simp [matchHandler, hlen, matchLoop_eq_selectMin, hne, selectMin] at h
    · obtain ⟨pre, p, suf, hdec, hsel, _, _⟩ := selectMin_none _ hne
      have hres : matchHandler desc members thresh = MatchResponse.ok p.1 := by
        simp only [matchHandler, if_neg (by simp [hlen] : ¬ desc.length ≠ 128)]
        rw [matchLoop_eq_selectMin, hsel]
      have hpq : p ∈ qualified thresh desc members := by
        rw [hdec]
        exact List.mem_append.mpr (Or.inr (List.mem_cons_self _ _))
      have heq : MatchResponse.ok p.1 = MatchResponse.ok r := hres.symm.trans h
      exact ⟨p, hpq, hres, by injection heq⟩
  · exfalso
    simp [matchHandler, hlen] at h

lemma matchHandler_ok_intro (desc : List ℚ) (members : List RawMember)
    (thresh : ℚ) (hlen : desc.length = 128)
    (hne : qualified thresh desc members ≠ []) :
    ∃ r, matchHandler desc members thresh = MatchResponse.ok r := by
  obtain ⟨pre, p, suf, hdec, hsel, _, _⟩ := selectMin_none _ hne
  refine ⟨p.1, ?_⟩
  simp only [matchHandler, if_neg (by simp [hlen] : ¬ desc.length ≠ 128)]
  rw [matchLoop_eq_selectMin, hsel]

lemma entries_filter_valid (query : List ℚ) (members : List RawMember) :
    entries query (members.filter isValidMember) = entries query members := by
  induction members with
  | nil => rfl
  | cons m rest ih =>
    cases m with
    | other =>
      rw [List.filter_cons, if_neg (by simp [isValidMember]), ih]
      simp [entries, List.filterMap_cons, memberEntry]
    | obj odesc oreg oname =>
      cases odesc with
      | none =>
        rw [List.filter_cons, if_neg (by simp [isValidMember]), ih]
        simp [entries, List.filterMap_cons, memberEntry]
      | some enc =>
        by_cases hlen : enc.length = 128
        · rw [List.filter_cons, if_pos (by simp [isValidMember, hlen])]
          simp only [entries, List.filterMap_cons, memberEntry, if_pos hlen]
          rw [show List.filterMap (memberEntry query)
              (List.filter isValidMember rest) = entries query rest from ih]
          rfl
        · rw [List.filter_cons, if_neg (by simp [isValidMember, hlen]), ih]
          simp [entries, List.filterMap_cons, memberEntry, hlen]

lemma sqDist_replicate (n : ℕ) (x y : ℚ) :
    sqDist (List.replicate n x) (List.replicate n y) = n * (x - y) ^ 2 := by
  induction n with
  | zero => simp [sqDist]
  | succ n ih =>
    rw [List.replicate_succ, List.replicate_succ, sqDist_cons, ih]
    push_cast
    ring

/-- All-zero 128-dimensional descriptor, a concrete test vector. -/
def zeroDesc : List ℚ := List.replicate 128 0

/-- All-one 128-dimensional descriptor, a concrete test vector whose
Euclidean distance to `zeroDesc` is `√128`, far above any realistic
threshold. -/
def oneDesc : List ℚ := List.replicate 128 1

/-- C1: for every query descriptor of length 128, `/match` returns the
candidate whose embedding has the minimum Euclidean distance to the query
among those with distance strictly below the threshold (`qualified` lists
them in scan order; distances are carried squared, which preserves order and
the strict threshold test), and among candidates achieving that minimum the
first one in scan order is returned: the chosen entry's distance is a lower
bound for every qualified candidate and strictly below every qualified
candidate that precedes it. -/
theorem match_returns_first_minimum (desc : List ℚ) (members : List RawMember)
    (thresh : ℚ) (hlen : desc.length = 128)
    (hne : qualified thresh desc members ≠ []) :
    ∃ pre p suf, qualified thresh desc members = pre ++ p :: suf ∧
      matchHandler desc members thresh = MatchResponse.ok p.1 ∧
      (∀ q ∈ qualified thresh desc members, p.2 ≤ q.2) ∧
      ∀ q ∈ pre, p.2 < q.2 := by
  obtain ⟨pre, p, suf, hdec, hsel, hmin, hpre⟩ := selectMin_none _ hne
  refine ⟨pre, p, suf, hdec, ?_, hmin, hpre⟩
  simp only [matchHandler, if_neg (by simp [hlen] : ¬ desc.length ≠ 128)]
  rw [matchLoop_eq_selectMin, hsel]

theorem match_returns_first_minimum_witness :
    zeroDesc.length = 128 ∧
    qualified (45 / 100) zeroDesc
      [RawMember.obj (some zeroDesc) (some 7) (some "Alice")] ≠ [] ∧
    ∃ pre p suf,
      qualified (45 / 100) zeroDesc
          [RawMember.obj (some zeroDesc) (some 7) (some "Alice")] =
        pre ++ p :: suf ∧
      matchHandler zeroDesc
          [RawMember.obj (some zeroDesc) (some 7) (some "Alice")] (45 / 100) =
        MatchResponse.ok p.1 ∧
      (∀ q ∈ qualified (45 / 100) zeroDesc
          [RawMember.obj (some zeroDesc) (some 7) (some "Alice")], p.2 ≤ q.2) ∧
      ∀ q ∈ pre, p.2 < q.2 := by
  have h1 : zeroDesc.length = 128 := by simp [zeroDesc]
  have h2 : qualified (45 / 100) zeroDesc
      [RawMember.obj (some zeroDesc) (some 7) (some "Alice")] ≠ [] := by
    simp only [qualified, entries, List.filterMap_cons, List.filterMap_nil,
      memberEntry, h1, if_pos, List.filter_cons]
    rw [if_pos]
    · simp
    · rw [sqDist_self]
      simp [qualifiesSq]
      norm_num
  exact ⟨h1, h2, match_returns_first_minimum _ _ _ h1 h2⟩

/-- C2: for every enrolled set containing a member whose embedding is exactly
equal to the query embedding (squared distance 0), `/match` returns a member
of the set whose embedding is exactly the query, with its `regNo`/`name`
fields (defaulted as the code does).  Stated for a positive threshold; the
default 0.45 is positive. -/
theorem match_exact_embedding_member (desc : List ℚ) (members : List RawMember)
    (thresh : ℚ) (oreg : Option Int) (oname : Option String)
    (hlen : desc.length = 128) (ht : 0 < thresh)
    (hmem : RawMember.obj (some desc) oreg oname ∈ members) :
    ∃ oreg2 oname2, RawMember.obj (some desc) oreg2 oname2 ∈ members ∧
      matchHandler desc members thresh =
        MatchResponse.ok ⟨oreg2.getD 0, oname2.getD ""⟩ := by
  have hzero : (⟨oreg.getD 0, oname.getD ""⟩, (0 : ℚ)) ∈ entries desc members :=
    entry_of_exact_member desc members oreg oname hlen hmem
  have hqz : (⟨oreg.getD 0, oname.getD ""⟩, (0 : ℚ)) ∈
      qualified thresh desc members := by
    refine List.mem_filter.mpr ⟨hzero, ?_⟩
    simp only [qualifiesSq, decide_eq_true_eq]
    exact ⟨le_of_lt ht, pow_pos ht 2⟩
  have hne : qualified thresh desc members ≠ [] := List.ne_nil_of_mem hqz
  obtain ⟨pre, p, suf, hdec, hsel, hmin, _⟩ := selectMin_none _ hne
  have hres : matchHandler desc members thresh = MatchResponse.ok p.1 := by
    simp only [matchHandler, if_neg (by simp [hlen] : ¬ desc.length ≠ 128)]
    rw [matchLoop_eq_selectMin, hsel]
  have hpq : p ∈ qualified thresh desc members := by
    rw [hdec]
    exact List.mem_append.mpr (Or.inr (List.mem_cons_self _ _))
  have hpe : p ∈ entries desc members := (List.mem_filter.mp hpq).1
  have hple : p.2 ≤ 0 := hmin _ hqz
  have hpge : 0 ≤ p.2 := entries_nonneg desc members p hpe
  have hp0 : p.2 = 0 := le_antisymm hple hpge
  obtain ⟨enc, oreg2, oname2, hm2, hl2, hpe2⟩ := mem_entries_elim desc members p hpe
  have hd0 : sqDist enc desc = 0 := by
    have := hpe2 ▸ hp0
    simpa using this
  have henc : enc = desc := eq_of_sqDist_eq_zero enc desc (hl2.trans hlen.symm) hd0
  refine ⟨oreg2, oname2, henc ▸ hm2, ?_⟩
  rw [hres, hpe2]

theorem match_exact_embedding_member_witness :
    zeroDesc.length = 128 ∧ (0 : ℚ) < 45 / 100 ∧
    RawMember.obj (some zeroDesc) (some 7) (some "Alice") ∈
      [RawMember.obj (some zeroDesc) (some 7) (some "Alice")] ∧
    ∃ oreg2 oname2,
      RawMember.obj (some zeroDesc) oreg2 oname2 ∈
        [RawMember.obj (some zeroDesc) (some 7) (some "Alice")] ∧
      matchHandler zeroDesc
          [RawMember.obj (some zeroDesc) (some 7) (some "Alice")] (45 / 100) =
        MatchResponse.ok ⟨oreg2.getD 0, oname2.getD ""⟩ := by
  have h1 : zeroDesc.length = 128 := by simp [zeroDesc]
  have h2 : (0 : ℚ) < 45 / 100 := by norm_num
  have h3 : RawMember.obj (some zeroDesc) (some 7) (some "Alice") ∈
      [RawMember.obj (some zeroDesc) (some 7) (some "Alice")] :=
    List.mem_singleton_self _
  exact ⟨h1, h2, h3, match_exact_embedding_member _ _ _ _ _ h1 h2 h3⟩

/-- C3: for every enrolled set in which every scanned candidate's distance to
the query is at least the threshold (squared distance at least the squared
threshold, which for a nonnegative threshold says distance ≥ threshold, so no
candidate qualifies), `/match` answers `{"match": false}`. -/
theorem match_all_beyond_threshold (desc : List ℚ) (members : List RawMember)
    (thresh : ℚ) (hlen : desc.length = 128)
    (hfar : ∀ p ∈ entries desc members, thresh ^ 2 ≤ p.2) :
    matchHandler desc members thresh = MatchResponse.noMatch := by
  have hq : qualified thresh desc members = [] := by
    rw [qualified, List.filter_eq_nil_iff]
    intro p hp
    simp only [qualifiesSq, decide_eq_true_eq, not_and]
    intro _
    exact not_lt.mpr (hfar p hp)
  simp [matchHandler, hlen, matchLoop_eq_selectMin, hq, selectMin]

theorem match_all_beyond_threshold_witness :
    zeroDesc.length = 128 ∧
    (∀ p ∈ entries zeroDesc
        [RawMember.obj (some oneDesc) (some 7) (some "Alice")],
      ((45 : ℚ) / 100) ^ 2 ≤ p.2) ∧
    matchHandler zeroDesc
        [RawMember.obj (some oneDesc) (some 7) (some "Alice")] (45 / 100) =
      MatchResponse.noMatch := by
  have h1 : zeroDesc.length = 128 := by simp [zeroDesc]
  have h2 : ∀ p ∈ entries zeroDesc
      [RawMember.obj (some oneDesc) (some 7) (some "Alice")],
      ((45 : ℚ) / 100) ^ 2 ≤ p.2 := by
    intro p hp
    have hd : sqDist oneDesc zeroDesc = 128 := by
      rw [oneDesc, zeroDesc, sqDist_replicate]
      norm_num
    simp only [entries, List.filterMap_cons, List.filterMap_nil, memberEntry,
      if_pos (by simp [oneDesc] : oneDesc.length = 128)] at hp
    rcases List.mem_singleton.mp hp with rfl
    rw [hd]
    norm_num
  exact ⟨h1, h2, match_all_beyond_threshold _ _ _ h1 h2⟩

/-- C4: for every query descriptor whose length is not 128, `/match` answers
the error `"Descriptor must be 128-d"` and never a matched member, whatever
the enrolled list and threshold. -/
theorem match_wrong_length_errors (desc : List ℚ) (members : List RawMember)
    (thresh : ℚ) (h : desc.length ≠ 128) :
    matchHandler desc members thresh =
      MatchResponse.err "Descriptor must be 128-d" ∧
    ∀ r, matchHandler desc members thresh ≠ MatchResponse.ok r := by
  have h1 : matchHandler desc members thresh =
      MatchResponse.err "Descriptor must be 128-d" := by
    simp [matchHandler, h]
  refine ⟨h1, fun r hr => ?_⟩
  rw [h1] at hr
  exact MatchResponse.noConfusion hr

theorem match_wrong_length_errors_witness :
    ([] : List ℚ).length ≠ 128 ∧
    (matchHandler [] [] (45 / 100) =
        MatchResponse.err "Descriptor must be 128-d" ∧
      ∀ r, matchHandler [] [] (45 / 100) ≠ MatchResponse.ok r) := by
  have h : ([] : List ℚ).length ≠ 128 := by simp
  exact ⟨h, match_wrong_length_errors [] [] (45 / 100) h⟩

/-- C5: malformed candidates (non-dict entries, entries missing the
`descriptor` field, entries whose embedding is not of length 128) are
silently skipped by `/match`: the response on any candidate list equals the
response on the list with the malformed entries removed, so they are never
compared, never error, and the scan continues over the rest. -/
theorem match_skips_malformed_members (desc : List ℚ)
    (members : List RawMember) (thresh : ℚ) :
    matchHandler desc members thresh =
      matchHandler desc (members.filter isValidMember) thresh := by
  by_cases hlen : desc.length = 128
  · have he : qualified thresh desc (members.filter isValidMember) =
        qualified thresh desc members := by
      rw [qualified, qualified, entries_filter_valid]
    simp only [matchHandler, if_neg (by simp [hlen] : ¬ desc.length ≠ 128)]
    rw [matchLoop_eq_selectMin, matchLoop_eq_selectMin, he]
  · simp [matchHandler, hlen]

/-- Concrete evaluation of `/match` on a singleton enrolled list holding the
query itself, used by the witnesses below. -/
lemma matchHandler_singleton_zero :
    matchHandler zeroDesc
        [RawMember.obj (some zeroDesc) (some 7) (some "Alice")] (45 / 100) =
      MatchResponse.ok ⟨7, "Alice"⟩ := by
  have hlen : zeroDesc.length = 128 := by simp [zeroDesc]
  have hqb : (qualifiesSq (45 / 100) (sqDist zeroDesc zeroDesc) &&
      ltBestSq (sqDist zeroDesc zeroDesc) none) = true := by
    rw [sqDist_self]
    simp only [qualifiesSq, ltBestSq, Bool.and_true]
    rw [decide_eq_true_eq]
    norm_num
  simp only [matchHandler, if_neg (by simp [hlen] : ¬ zeroDesc.length ≠ 128)]
  simp only [matchLoop, if_neg (by simp [hlen] : ¬ zeroDesc.length ≠ 128),
    hqb, if_pos]
  rfl

/-- C6: the accept test of `/match` is strict: whenever `/match` returns a
match, the candidate entry it came from has squared distance strictly below
the squared threshold (i.e. Euclidean distance strictly below the threshold),
so a candidate at distance exactly the threshold is never accepted. -/
theorem match_accept_strictly_below_threshold (desc : List ℚ)
    (members : List RawMember) (thresh : ℚ) (r : MatchResult)
    (h : matchHandler desc members thresh = MatchResponse.ok r) :
    ∃ p ∈ entries desc members, p.1 = r ∧ 0 ≤ thresh ∧ p.2 < thresh ^ 2 := by
  obtain ⟨hlen, p, hpq, hres, hpr⟩ := matchHandler_ok_elim desc members thresh r h
  have hmf := List.mem_filter.mp hpq
  have hq := hmf.2
  simp only [qualifiesSq, decide_eq_true_eq] at hq
  exact ⟨p, hmf.1, hpr, hq.1, hq.2⟩

theorem match_accept_strictly_below_threshold_witness :
    matchHandler zeroDesc
        [RawMember.obj (some zeroDesc) (some 7) (some "Alice")] (45 / 100) =
      MatchResponse.ok ⟨7, "Alice"⟩ ∧
    ∃ p ∈ entries zeroDesc
        [RawMember.obj (some zeroDesc) (some 7) (some "Alice")],
      p.1 = MatchResult.mk 7 "Alice" ∧ (0 : ℚ) ≤ 45 / 100 ∧
      p.2 < ((45 : ℚ) / 100) ^ 2 :=
  ⟨matchHandler_singleton_zero,
    match_accept_strictly_below_threshold _ _ _ _ matchHandler_singleton_zero⟩

/-- C7: the match decision is monotone in the threshold: if `/match` returns
a match under threshold `t1`, then under any threshold `t2 ≥ t1` it also
returns a match (on the same query and enrolled set); equivalently, lowering
the threshold never creates a match where a higher one produced none. -/
theorem match_threshold_monotone (desc : List ℚ) (members : List RawMember)
    (t1 t2 : ℚ) (r : MatchResult) (h12 : t1 ≤ t2)
    (h : matchHandler desc members t1 = MatchResponse.ok r) :
    ∃ r2, matchHandler desc members t2 = MatchResponse.ok r2 := by
  obtain ⟨hlen, p, hpq, _, _⟩ := matchHandler_ok_elim desc members t1 r h
  have hmf := List.mem_filter.mp hpq
  have hq1 := hmf.2
  simp only [qualifiesSq, decide_eq_true_eq] at hq1
  have h0 : (0 : ℚ) ≤ t1 := hq1.1
  have hq2 : qualifiesSq t2 p.2 = true := by
    simp only [qualifiesSq, decide_eq_true_eq]
    exact ⟨le_trans h0 h12, lt_of_lt_of_le hq1.2 (pow_le_pow_left₀ h0 h12 2)⟩
  have hne : qualified t2 desc members ≠ [] :=
    List.ne_nil_of_mem (List.mem_filter.mpr ⟨hmf.1, hq2⟩)
  exact matchHandler_ok_intro desc members t2 hlen hne

theorem match_threshold_monotone_witness :
    ((45 : ℚ) / 100) ≤ 1 ∧
    matchHandler zeroDesc
        [RawMember.obj (some zeroDesc) (some 7) (some "Alice")] (45 / 100) =
      MatchResponse.ok ⟨7, "Alice"⟩ ∧
    ∃ r2, matchHandler zeroDesc
        [RawMember.obj (some zeroDesc) (some 7) (some "Alice")] 1 =
      MatchResponse.ok r2 := by
  have h12 : ((45 : ℚ) / 100) ≤ 1 := by norm_num
  exact ⟨h12, matchHandler_singleton_zero,
    match_threshold_monotone _ _ _ _ _ h12 matchHandler_singleton_zero⟩

/-- C8: `/match-image` delegates to the `/match` logic: when the external
encoder finds at least one face it answers exactly what `/match` answers on
the first face encoding with the same enrolled list, and when no face is
found it answers `{"error": "No face found"}` without any matching. -/
theorem match_image_delegates :
    (∀ members thresh, matchImageHandler [] members thresh =
        MatchResponse.err "No face found") ∧
    ∀ e rest members thresh,
      matchImageHandler (e :: rest) members thresh =
        matchHandler e members thresh :=
  ⟨fun _ _ => rfl, fun _ _ _ _ => rfl⟩

/-- C9: `GET /health` always answers `{"status": "ok"}`, whether or not the
face-recognition library is available (the route never touches it). -/
theorem health_always_ok : ∀ lib : Bool, health lib = ⟨"ok"⟩ :=
  fun _ => rfl

/-- C10: a best-matching candidate with a 128-length descriptor but missing
`regNo` or `name` is still returned as a match, with `0` substituted for the
missing `regNo` and `""` for the missing `name` (here for a candidate within
threshold that is the whole enrolled list). -/
theorem match_defaults_for_missing_fields (desc d : List ℚ) (thresh : ℚ)
    (hdesc : desc.length = 128) (hd : d.length = 128)
    (ht : 0 ≤ thresh) (hq : sqDist d desc < thresh ^ 2) :
    matchHandler desc [RawMember.obj (some d) none none] thresh =
      MatchResponse.ok ⟨0, ""⟩ := by
  have hqb : (qualifiesSq thresh (sqDist d desc) &&
      ltBestSq (sqDist d desc) none) = true := by
    simp only [qualifiesSq, ltBestSq, Bool.and_true]
    rw [decide_eq_true_eq]
    exact ⟨ht, hq⟩
  simp only [matchHandler, if_neg (by simp [hdesc] : ¬ desc.length ≠ 128)]
  simp only [matchLoop, if_neg (by simp [hd] : ¬ d.length ≠ 128), hqb, if_pos]
  rfl

theorem match_defaults_for_missing_fields_witness :
    zeroDesc.length = 128 ∧ zeroDesc.length = 128 ∧ (0 : ℚ) ≤ 45 / 100 ∧
    sqDist zeroDesc zeroDesc < ((45 : ℚ) / 100) ^ 2 ∧
    matchHandler zeroDesc [RawMember.obj (some zeroDesc) none none]
        (45 / 100) = MatchResponse.ok ⟨0, ""⟩ := by
  have h1 : zeroDesc.length = 128 := by simp [zeroDesc]
  have ht : (0 : ℚ) ≤ 45 / 100 := by norm_num
  have hq : sqDist zeroDesc zeroDesc < ((45 : ℚ) / 100) ^ 2 := by
    rw [sqDist_self]
    norm_num
  exact ⟨h1, h1, ht, hq,
    match_defaults_for_missing_fields _ _ _ h1 h1 ht hq⟩

end FaceService
